import Mathlib

/-
Verification of the sll_meta singly-linked-list toolkit (src/sll_meta.h).

Shallow embedding: node identity is a Nat (a pointer); the only heap cell the
toolkit touches is each node's sll_link_next slot, modelled as a function
Nat -> Option Nat (none = NULL).  Lists, iterators and pools are the C structs.
Each C function becomes a pure Lean function threading the heap explicitly.
-/

namespace SllMeta

/-- The link heap: node id to the content of its sll_link_next slot. -/
def Heap := Nat → Option Nat

/-- Store v into node a's sll_link_next slot. -/
def setNext (h : Heap) (a : Nat) (v : Option Nat) : Heap :=
  fun x => if x = a then v else h x

/-- The list struct of SLL_DECLS: first, last, and the element count n. -/
structure SllList where
  first : Option Nat
  last : Option Nat
  n : Nat
deriving DecidableEq

/-- A list whose fields are all zero, as produced by `= {0}` initialization. -/
def emptyList : SllList := ⟨none, none, 0⟩

/-- lclear: reset first/last to NULL and n to 0. -/
def lclear (_list : SllList) : SllList := ⟨none, none, 0⟩

/-- lnclear: clear a node's link slot. -/
def lnclear (h : Heap) (node : Nat) : Heap := setNext h node none

/-- lsize: return list->n. -/
def lsize (list : SllList) : Nat := list.n

/-- lpushback: append a node at the tail.  When n = 0 the node becomes both
first and last; otherwise the old last's link slot is set to the node and
last is updated.  (The none-last branch with n different from 0 dereferences
NULL in C; it is unreachable for well-formed lists and modelled as a no-op.) -/
def lpushback (h : Heap) (list : SllList) (node : Nat) : Heap × SllList :=
  if list.n = 0 then
    (h, ⟨some node, some node, 1⟩)
  else
    match list.last with
    | some lastNode =>
        (setNext h lastNode (some node), ⟨list.first, some node, list.n + 1⟩)
    | none => (h, list)

/-- lpopfront: when n = 0 return NULL and leave the list untouched; otherwise
detach the first node, advance first to its successor, decrement n, clear
last when the list became empty, clear the detached node's link slot and
return it.  (The none-first branch with n different from 0 dereferences NULL
in C; unreachable for well-formed lists, modelled as returning nothing.) -/
def lpopfront (h : Heap) (list : SllList) : Heap × SllList × Option Nat :=
  if list.n = 0 then (h, list, none)
  else
    match list.first with
    | some node =>
        let first' := h node
        (setNext h node none,
         ⟨first', if first' = none then none else list.last, list.n - 1⟩,
         some node)
    | none => (h, list, none)

/-- The loop body of lfree, with fuel: while lsize > 0, pop the front and
hand the node to node_free_func.  The third component collects the nodes
passed to node_free_func, in call order. -/
def lfreeAux : Nat → Heap → SllList → Heap × SllList × List Nat
  | 0, h, list => (h, list, [])
  | fuel + 1, h, list =>
    if lsize list > 0 then
      match lpopfront h list with
      | (h', list', some node) =>
          let r := lfreeAux fuel h' list'
          (r.1, r.2.1, node :: r.2.2)
      | (h', list', none) =>
          let r := lfreeAux fuel h' list'
          (r.1, r.2.1, r.2.2)
    else (h, list, [])

/-- lfree: drain the list through lpopfront, freeing every node.  Each
iteration of the C while-loop removes one element, so fuel list.n covers
every well-formed run exactly. -/
def lfree (h : Heap) (list : SllList) : Heap × SllList × List Nat :=
  lfreeAux list.n h list

/-- The iterator struct of SLL_ITER_DECLS: prev, current and next (lookahead).
The C struct also stores the list pointer; operations here take the single
list in scope as an explicit argument instead. -/
structure IterSt where
  prev : Option Nat
  current : Option Nat
  next : Option Nat
deriving DecidableEq

/-- The SLL_ISTART static-initializer macro: prev = NULL, current = first
(written in C as a conditional that returns first in both arms), and next =
first->sll_link_next when first is non-NULL, else NULL. -/
def sllIstart (h : Heap) (list : SllList) : IterSt :=
  ⟨none,
   if list.first ≠ none then list.first else none,
   match list.first with
   | some f => h f
   | none => none⟩

/-- istart: prev = NULL, current = list->first, and next is assigned only
when current is non-NULL.  When the list is empty the C function leaves
iter->next unassigned, so the field keeps whatever value the iterator held
before the call. -/
def istart (h : Heap) (list : SllList) (iter : IterSt) : IterSt :=
  let current := list.first
  ⟨none,
   current,
   match current with
   | some c => h c
   | none => iter.next⟩

/-- iget: return iter->current. -/
def iget (iter : IterSt) : Option Nat := iter.current

/-- inext: when current is non-NULL, prev becomes current; current becomes
next; and when the new current is non-NULL, next is recomputed as its
successor (otherwise next keeps its old value, which equals the new NULL
current). -/
def inext (h : Heap) (iter : IterSt) : IterSt :=
  let prev := match iter.current with
              | some _ => iter.current
              | none => iter.prev
  let current := iter.next
  let next := match current with
              | some c => h c
              | none => iter.next
  ⟨prev, current, next⟩

/-- iisend: true when list->last equals prev, current is NULL and next is
NULL. -/
def iisend (list : SllList) (iter : IterSt) : Bool :=
  list.last == iter.prev && iter.current == none && iter.next == none

/-- ipop: when current is non-NULL, detach it: update list->first to next
when current was first, update list->last to prev when current was last,
clear the node's link slot, set current to NULL and decrement list->n.  In
all cases, when prev is non-NULL, patch prev's link slot to next.  Returns
the detached node (the old current, possibly NULL). -/
def ipop (h : Heap) (list : SllList) (iter : IterSt) :
    Heap × SllList × IterSt × Option Nat :=
  let node := iter.current
  let step1 :=
    match node with
    | some nd =>
        (setNext h nd none,
         SllList.mk (if iter.current = list.first then iter.next else list.first)
                    (if iter.current = list.last then iter.prev else list.last)
                    (list.n - 1),
         IterSt.mk iter.prev none iter.next)
    | none => (h, list, iter)
  let h2 :=
    match iter.prev with
    | some p => setNext step1.1 p iter.next
    | none => step1.1
  (h2, step1.2.1, step1.2.2, node)

/-- pclear: clear the underlying list. -/
def pclear (pool : SllList) : SllList := lclear pool

/-- pget: pop the front of the pool; when the pool is empty, calloc a fresh
node.  Allocation is modelled by a counter alloc of the next fresh id;
calloc zeroes the new node, i.e. its link slot becomes none.  Returns
(heap, pool, alloc counter, node). -/
def pget (h : Heap) (pool : SllList) (alloc : Nat) :
    Heap × SllList × Nat × Nat :=
  match lpopfront h pool with
  | (h', pool', some node) => (h', pool', alloc, node)
  | (h', pool', none) => (setNext h' alloc none, pool', alloc + 1, alloc)

/-- pgetm: like pget but with malloc, which leaves the fresh node's fields
(its link slot) unchanged in the heap, and an isnew flag: false when a
pooled node was recycled, true when a fresh node was allocated. -/
def pgetm (h : Heap) (pool : SllList) (alloc : Nat) :
    Heap × SllList × Nat × Nat × Bool :=
  match lpopfront h pool with
  | (h', pool', some node) => (h', pool', alloc, node, false)
  | (h', pool', none) => (h', pool', alloc + 1, alloc, true)

/-- preturn: push the node back onto the pool's list. -/
def preturn (h : Heap) (pool : SllList) (node : Nat) : Heap × SllList :=
  lpushback h pool node

/-- pfree: drain the pool through lfree, freeing every pooled node. -/
def pfree (h : Heap) (pool : SllList) : Heap × SllList × List Nat :=
  lfree h pool

/-- chainSeg h p xs q: starting from reference p, following the link slots
visits exactly the nodes xs and then arrives at reference q. -/
def chainSeg (h : Heap) : Option Nat → List Nat → Option Nat → Prop
  | p, [], q => p = q
  | p, x :: xs, q => p = some x ∧ chainSeg h (h x) xs q

def chainSegDec (h : Heap) (q : Option Nat) :
    (xs : List Nat) → (p : Option Nat) → Decidable (chainSeg h p xs q)
  | [], p => inferInstanceAs (Decidable (p = q))
  | x :: xs, p =>
      @instDecidableAnd _ _ (inferInstanceAs (Decidable (p = some x)))
        (chainSegDec h q xs (h x))

instance (h : Heap) (p : Option Nat) (xs : List Nat) (q : Option Nat) :
    Decidable (chainSeg h p xs q) := chainSegDec h q xs p

/-- isChain h p xs: from reference p the link slots reach exactly the nodes
xs and then "no successor". -/
def isChain (h : Heap) (p : Option Nat) (xs : List Nat) : Prop :=
  chainSeg h p xs none

instance (h : Heap) (p : Option Nat) (xs : List Nat) : Decidable (isChain h p xs) :=
  chainSegDec h none xs p

/-- The first (at most) fuel nodes reachable from a reference by following
link slots until none. -/
def chainOut (h : Heap) : Nat → Option Nat → List Nat
  | 0, _ => []
  | _ + 1, none => []
  | fuel + 1, some x => x :: chainOut h fuel (h x)

/-- The nodes of a list, read from the heap with the list's own count as
fuel.  For well-formed lists this is exactly the chain from first. -/
def nodesOf (h : Heap) (list : SllList) : List Nat :=
  chainOut h list.n list.first

/-- Well-formedness of a list against the heap: its nodes L are the chain
from first ending in none, n counts them, and last is the final node. -/
structure ListOk (h : Heap) (list : SllList) (L : List Nat) : Prop where
  chainOk : chainSeg h list.first L none
  lenOk : L.length = list.n
  lastOk : list.last = L.getLast?

/-- Validity of an iterator over a list whose nodes are L.  Either the
iterator is positioned on a node cur of L with prev the node just before the
cur position and next the lookahead captured from cur's slot, or current is
NULL and the iterator sits between a prefix pre and a suffix post of L (as
right after ipop, after reaching the end, or after starting on an empty
list). -/
def IterOk (h : Heap) (L : List Nat) (it : IterSt) : Prop :=
  (∃ pre cur post, L = pre ++ cur :: post ∧ it.current = some cur ∧
     it.prev = pre.getLast? ∧ it.next = h cur) ∨
  (∃ pre post, L = pre ++ post ∧ it.current = none ∧
     it.prev = pre.getLast? ∧ it.next = post.head?)

/-- The whole-program state: the link heap, one list, one pool, one iterator
over the list, a flag recording whether the iterator is currently valid
(istart sets it; plain list mutations invalidate it), and the allocation
counter (every node id handed out so far is below it). -/
structure Sys where
  heap : Heap
  list : SllList
  pool : SllList
  it : IterSt
  valid : Bool
  alloc : Nat

def sysClear (s : Sys) : Sys :=
  { s with list := lclear s.list, valid := false }

def sysPushback (s : Sys) (x : Nat) : Sys :=
  let r := lpushback s.heap s.list x
  { s with heap := r.1, list := r.2, valid := false }

def sysPopfront (s : Sys) : Sys :=
  let r := lpopfront s.heap s.list
  { s with heap := r.1, list := r.2.1, valid := false }

def sysStartMacro (s : Sys) : Sys :=
  { s with it := sllIstart s.heap s.list, valid := true }

def sysStartFn (s : Sys) : Sys :=
  { s with it := istart s.heap s.list s.it, valid := true }

def sysNext (s : Sys) : Sys :=
  { s with it := inext s.heap s.it }

def sysIpop (s : Sys) : Sys :=
  let r := ipop s.heap s.list s.it
  { s with heap := r.1, list := r.2.1, it := r.2.2.1 }

def sysPget (s : Sys) : Sys :=
  let r := pget s.heap s.pool s.alloc
  { s with heap := r.1, pool := r.2.1, alloc := r.2.2.1 }

def sysPgetm (s : Sys) : Sys :=
  let r := pgetm s.heap s.pool s.alloc
  { s with heap := r.1, pool := r.2.1, alloc := r.2.2.1 }

def sysPreturn (s : Sys) (x : Nat) : Sys :=
  let r := preturn s.heap s.pool x
  { s with heap := r.1, pool := r.2 }

/-- States reachable from an initial zeroed list and pool by the public
operations, each invoked under its stated preconditions: a node passed to
pushback or preturn must be an allocated node that belongs to no list and
whose link slot has been initialized to NULL, and inext and ipop require the
iterator to be valid (no plain list mutation since istart).  istart through
the C function is modelled on non-empty lists; on an empty list the function
leaves the lookahead field unassigned (see the istart definition), so the
subsequent behavior depends on an indeterminate value and only the
SLL_ISTART macro form is modelled there. -/
inductive Reach : Sys → Prop
  | init (h : Heap) (it : IterSt) :
      Reach ⟨h, emptyList, emptyList, it, false, 0⟩
  | clearStep {s : Sys} : Reach s → Reach (sysClear s)
  | pushbackStep {s : Sys} {x : Nat} : Reach s → x < s.alloc →
      s.heap x = none → x ∉ nodesOf s.heap s.list → x ∉ nodesOf s.heap s.pool →
      Reach (sysPushback s x)
  | popfrontStep {s : Sys} : Reach s → Reach (sysPopfront s)
  | startMacroStep {s : Sys} : Reach s → Reach (sysStartMacro s)
  | startFnStep {s : Sys} : Reach s → s.list.first ≠ none → Reach (sysStartFn s)
  | nextStep {s : Sys} : Reach s → s.valid = true → Reach (sysNext s)
  | ipopStep {s : Sys} : Reach s → s.valid = true → Reach (sysIpop s)
  | pgetStep {s : Sys} : Reach s → Reach (sysPget s)
  | pgetmStep {s : Sys} : Reach s → Reach (sysPgetm s)
  | preturnStep {s : Sys} {x : Nat} : Reach s → x < s.alloc →
      s.heap x = none → x ∉ nodesOf s.heap s.list → x ∉ nodesOf s.heap s.pool →
      Reach (sysPreturn s x)

/-- The system invariant: the list and the pool are well-formed against the
heap with disjoint node sets, all their nodes were allocated, and whenever
the iterator is valid it is consistent with the list. -/
def SysInv (s : Sys) : Prop :=
  ∃ L P, ListOk s.heap s.list L ∧ ListOk s.heap s.pool P ∧
    (∀ x ∈ L, x ∉ P) ∧ (∀ x ∈ L, x < s.alloc) ∧ (∀ x ∈ P, x < s.alloc) ∧
    (s.valid = true → IterOk s.heap L s.it)

/-- Push each node of xs in order onto the list. -/
def pushAll (h : Heap) (list : SllList) : List Nat → Heap × SllList
  | [] => (h, list)
  | x :: xs =>
      let r := lpushback h list x
      pushAll r.1 r.2 xs

/-- Pop the front k times, collecting the returned references in order. -/
def popN (h : Heap) (list : SllList) : Nat → Heap × SllList × List (Option Nat)
  | 0 => (h, list, [])
  | k + 1 =>
      match lpopfront h list with
      | (h', list', r) =>
          let rest := popN h' list' k
          (rest.1, rest.2.1, r :: rest.2.2)

/-- k applications of inext. -/
def inextN (h : Heap) : Nat → IterSt → IterSt
  | 0, it => it
  | k + 1, it => inext h (inextN h k it)

/-- The traversal loop of the example program: while not iisend, read the
current node with iget, ipop it when pred holds, then advance with inext.
Collects every iget result (the visit sequence) in order. -/
def iterFilterLoop (pred : Nat → Bool) :
    Nat → Heap → SllList → IterSt → Heap × SllList × List (Option Nat)
  | 0, h, list, _ => (h, list, [])
  | fuel + 1, h, list, it =>
    if iisend list it then (h, list, [])
    else
      let node := iget it
      match node with
      | some nd =>
          if pred nd then
            let r := ipop h list it
            let r2 := iterFilterLoop pred fuel r.1 r.2.1 (inext r.1 r.2.2.1)
            (r2.1, r2.2.1, node :: r2.2.2)
          else
            let r2 := iterFilterLoop pred fuel h list (inext h it)
            (r2.1, r2.2.1, node :: r2.2.2)
      | none =>
          let r2 := iterFilterLoop pred fuel h list (inext h it)
          (r2.1, r2.2.1, node :: r2.2.2)

/-- Assertion guard of lclear: assert(list != NULL). -/
def lclearAsserts (list : Option SllList) : Bool := list.isSome

/-- Assertion guard of lnclear: assert(node != NULL). -/
def lnclearAsserts (node : Option Nat) : Bool := node.isSome

/-- Assertion guard of lsize: assert(list != NULL). -/
def lsizeAsserts (list : Option SllList) : Bool := list.isSome

/-- Assertion guard of lpushback: assert(list != NULL) only; the node
argument is not asserted. -/
def lpushbackAsserts (list : Option SllList) (_node : Option Nat) : Bool :=
  list.isSome

/-- Assertion guard of lpopfront: assert(list != NULL). -/
def lpopfrontAsserts (list : Option SllList) : Bool := list.isSome

/-- Assertion guard of lfree: no assert of its own; its first action calls
lsize on the list, whose assert fires before any dereference. -/
def lfreeAsserts (list : Option SllList) : Bool := lsizeAsserts list

/-- Assertion guard of istart: assert(iter != NULL) and assert(list != NULL). -/
def istartAsserts (iter : Option IterSt) (list : Option SllList) : Bool :=
  iter.isSome && list.isSome

/-- Assertion guard of iget: assert(iter != NULL). -/
def igetAsserts (iter : Option IterSt) : Bool := iter.isSome

/-- Assertion guard of inext: assert(iter != NULL). -/
def inextAsserts (iter : Option IterSt) : Bool := iter.isSome

/-- Assertion guard of iisend: assert(iter != NULL). -/
def iisendAsserts (iter : Option IterSt) : Bool := iter.isSome

/-- Assertion guard of ipop: assert(iter != NULL). -/
def ipopAsserts (iter : Option IterSt) : Bool := iter.isSome

/-- Assertion guard of pclear: no assert of its own; it calls lclear, whose
assert fires first. -/
def pclearAsserts (pool : Option SllList) : Bool := lclearAsserts pool

/-- Assertion guard of pget: assert(pool != NULL). -/
def pgetAsserts (pool : Option SllList) : Bool := pool.isSome

/-- Assertion guard of pgetm: assert(pool != NULL) and assert(isnew != NULL). -/
def pgetmAsserts (pool : Option SllList) (isnew : Option Bool) : Bool :=
  pool.isSome && isnew.isSome

/-- Assertion guard of preturn: assert(pool != NULL) and assert(node != NULL). -/
def preturnAsserts (pool : Option SllList) (node : Option Nat) : Bool :=
  pool.isSome && node.isSome

/-- Assertion guard of pfree: assert(pool != NULL). -/
def pfreeAsserts (pool : Option SllList) : Bool := pool.isSome

/-- lpushback with its node argument kept nullable: the C body never checks
the node, it stores the pointer as given, so a NULL node is appended and
becomes first/last (or the old last's link-slot content). -/
def lpushbackNullable (h : Heap) (list : SllList) (node : Option Nat) :
    Heap × SllList :=
  if list.n = 0 then
    (h, ⟨node, node, 1⟩)
  else
    match list.last with
    | some lastNode =>
        (setNext h lastNode node, ⟨list.first, node, list.n + 1⟩)
    | none => (h, list)

/-- The heap of the concrete five-node scenario: node ids double as the
stored values, 1 links to 2 links to 3 links to 4 links to 5. -/
def c1Heap : Heap := fun x =>
  if x = 1 then some 2 else if x = 2 then some 3 else if x = 3 then some 4
  else if x = 4 then some 5 else none

/-- The concrete list [1,2,3,4,5] over c1Heap. -/
def c1List : SllList := ⟨some 1, some 5, 5⟩

/-- A concrete two-node heap: 1 links to 2, everything else unlinked. -/
def c3Heap : Heap := fun x => if x = 1 then some 2 else none

/-- The concrete list [1,2] over c3Heap. -/
def c3List : SllList := ⟨some 1, some 2, 2⟩

/-- A concrete two-node heap: 1 links to 2, everything else unlinked. -/
def c8Heap : Heap := fun x => if x = 1 then some 2 else none

/-- The concrete list [1,2] over c8Heap. -/
def c8List : SllList := ⟨some 1, some 2, 2⟩

/-- The state reached by: allocate a node from the empty pool, push it onto
the list, start an iterator with the SLL_ISTART form, and pop the node. -/
def c2WitSys : Sys :=
  sysIpop (sysStartMacro (sysPushback (sysPget
    ⟨fun _ => none, emptyList, emptyList, ⟨none, none, none⟩, false, 0⟩) 0))

/-- The state reached by starting an iterator (SLL_ISTART form) on the empty
list: valid, with current = none. -/
def c5WitSys : Sys :=
  sysStartMacro ⟨fun _ => none, emptyList, emptyList, ⟨none, none, none⟩, false, 0⟩

theorem setNext_self (h : Heap) (a : Nat) : setNext h a (h a) = h := by
  funext x
  by_cases hx : x = a <;> simp [setNext, hx]

theorem chainSeg_nil {h : Heap} {p q : Option Nat} :
    chainSeg h p [] q ↔ p = q := Iff.rfl

theorem chainSeg_cons {h : Heap} {p q : Option Nat} {x : Nat} {xs : List Nat} :
    chainSeg h p (x :: xs) q ↔ p = some x ∧ chainSeg h (h x) xs q := Iff.rfl

theorem chainSeg_append {h : Heap} {q : Option Nat} :
    ∀ {xs : List Nat} {p : Option Nat} {ys : List Nat},
    chainSeg h p (xs ++ ys) q ↔ ∃ m, chainSeg h p xs m ∧ chainSeg h m ys q := by
  intro xs
  induction xs with
  | nil =>
      intro p ys
      constructor
      · intro hc
        exact ⟨p, rfl, hc⟩
      · rintro ⟨m, hm, hc⟩
        cases hm
        exact hc
  | cons x xs ih =>
      intro p ys
      constructor
      · rintro ⟨hp, hc⟩
        obtain ⟨m, hm1, hm2⟩ := ih.1 hc
        exact ⟨m, ⟨hp, hm1⟩, hm2⟩
      · rintro ⟨m, ⟨hp, hm1⟩, hm2⟩
        exact ⟨hp, ih.2 ⟨m, hm1, hm2⟩⟩

theorem isChain_head {h : Heap} {p : Option Nat} {xs : List Nat}
    (hc : chainSeg h p xs none) : p = xs.head? := by
  cases xs with
  | nil => exact hc
  | cons x xs => exact hc.1

theorem chainSeg_congr {h h' : Heap} {q : Option Nat} :
    ∀ {xs : List Nat} {p : Option Nat}, (∀ x ∈ xs, h' x = h x) →
    chainSeg h p xs q → chainSeg h' p xs q := by
  intro xs
  induction xs with
  | nil => intro p _ hc; exact hc
  | cons x xs ih =>
      intro p hagree hc
      refine ⟨hc.1, ?_⟩
      have hx : h' x = h x := hagree x (List.mem_cons_self x xs)
      rw [hx]
      exact ih (fun y hy => hagree y (List.mem_cons_of_mem x hy)) hc.2

theorem chainSeg_none_unique {h : Heap} :
    ∀ {xs : List Nat} {p : Option Nat} {ys : List Nat},
    chainSeg h p xs none → chainSeg h p ys none → xs = ys := by
  intro xs
  induction xs with
  | nil =>
      intro p ys h1 h2
      cases ys with
      | nil => rfl
      | cons y ys =>
          rw [chainSeg_nil] at h1
          rw [h1] at h2
          exact absurd h2.1 (by simp)
  | cons x xs ih =>
      intro p ys h1 h2
      cases ys with
      | nil =>
          rw [chainSeg_nil] at h2
          rw [h2] at h1
          exact absurd h1.1 (by simp)
      | cons y ys =>
          have hxy : x = y := by
            have := h1.1.symm.trans h2.1
            exact Option.some.inj this
          subst hxy
          rw [ih h1.2 h2.2]

theorem chainSeg_head_not_mem {h : Heap} {x : Nat} {xs : List Nat}
    (hc : chainSeg h (some x) (x :: xs) none) : x ∉ xs := by
  intro hmem
  obtain ⟨a, b, hab⟩ := List.append_of_mem hmem
  subst hab
  have hc2 : chainSeg h (some x) ((x :: a) ++ (x :: b)) none := by
    simpa using hc
  obtain ⟨m, hm1, hm2⟩ := chainSeg_append.1 hc2
  have hm : m = some x := hm2.1
  subst hm
  have := chainSeg_none_unique hc hm2
  have hlen := congrArg List.length this
  simp at hlen
  omega

theorem chainSeg_nodup {h : Heap} :
    ∀ {xs : List Nat} {p : Option Nat}, chainSeg h p xs none → xs.Nodup := by
  intro xs
  induction xs with
  | nil => intro p _; exact List.nodup_nil
  | cons x xs ih =>
      intro p hc
      rw [List.nodup_cons]
      refine ⟨chainSeg_head_not_mem ⟨rfl, hc.2⟩, ih hc.2⟩

theorem chainSeg_drop {h : Heap} {xs : List Nat} {p : Option Nat}
    (hc : chainSeg h p xs none) :
    ∀ k, chainSeg h (xs.drop k).head? (xs.drop k) none := by
  intro k
  induction k with
  | zero =>
      simpa [← isChain_head hc] using hc
  | succ k ih =>
      cases hdk : xs.drop k with
      | nil =>
          have : xs.drop (k + 1) = [] := by
            have := List.drop_eq_nil_iff.1 hdk
            exact List.drop_eq_nil_of_le (Nat.le_succ_of_le this)
          rw [this]
          rfl
      | cons c rest =>
          have hdk1 : xs.drop (k + 1) = rest := by
            have : xs.drop (k + 1) = (xs.drop k).drop 1 := by
              rw [List.drop_drop]
            rw [this, hdk]
            rfl
          rw [hdk] at ih
          have hrest : chainSeg h (h c) rest none := ih.2
          rw [hdk1, ← isChain_head hrest]
          exact hrest

theorem chainOut_eq {h : Heap} :
    ∀ {xs : List Nat} {p : Option Nat}, chainSeg h p xs none →
    chainOut h xs.length p = xs := by
  intro xs
  induction xs with
  | nil => intro p hc; rw [chainSeg_nil] at hc; subst hc; rfl
  | cons x xs ih =>
      intro p hc
      rw [hc.1]
      show x :: chainOut h xs.length (h x) = x :: xs
      rw [ih hc.2]

theorem nodesOf_eq {h : Heap} {list : SllList} {L : List Nat}
    (hl : ListOk h list L) : nodesOf h list = L := by
  unfold nodesOf
  rw [← hl.lenOk]
  exact chainOut_eq hl.chainOk

theorem listOk_congr {h h' : Heap} {list : SllList} {L : List Nat}
    (hagree : ∀ x ∈ L, h' x = h x) (hl : ListOk h list L) : ListOk h' list L :=
  ⟨chainSeg_congr hagree hl.chainOk, hl.lenOk, hl.lastOk⟩

theorem iterOk_congr {h h' : Heap} {L : List Nat} {it : IterSt}
    (hagree : ∀ x ∈ L, h' x = h x) (hit : IterOk h L it) : IterOk h' L it := by
  rcases hit with ⟨pre, cur, post, hL, hcur, hprev, hnext⟩ | hend
  · refine Or.inl ⟨pre, cur, post, hL, hcur, hprev, ?_⟩
    rw [hnext, hagree cur (by rw [hL]; exact List.mem_append_right _ (List.mem_cons_self _ _))]
  · exact Or.inr hend

theorem lpushback_ok {h : Heap} {list : SllList} {L : List Nat} {x : Nat}
    (hl : ListOk h list L) (hx : x ∉ L) (hlink : h x = none) :
    ListOk (lpushback h list x).1 (lpushback h list x).2 (L ++ [x]) ∧
    ∀ z, z ∉ L → (lpushback h list x).1 z = h z := by
  by_cases hn : list.n = 0
  · have hL : L = [] := List.eq_nil_of_length_eq_zero (hl.lenOk.trans hn)
    subst hL
    unfold lpushback
    rw [if_pos hn]
    exact ⟨⟨⟨rfl, hlink⟩, rfl, rfl⟩, fun z _ => rfl⟩
  · rcases List.eq_nil_or_concat L with hL | ⟨L', z, hL⟩
    · exact absurd (hl.lenOk.symm.trans (show L.length = 0 by rw [hL]; rfl)) hn
    rw [List.concat_eq_append] at hL
    subst hL
    have hlast : list.last = some z := by
      rw [hl.lastOk, List.getLast?_concat]
    have hnodup : (L' ++ [z]).Nodup := chainSeg_nodup hl.chainOk
    have hzL' : z ∉ L' := by
      rw [List.nodup_append] at hnodup
      intro hmem
      exact hnodup.2.2 hmem (List.mem_cons_self z [])
    have hxz : x ≠ z := fun hxz => hx (by rw [hxz]; exact List.mem_append_right _ (List.mem_cons_self _ _))
    have hxL' : x ∉ L' := fun hmem => hx (List.mem_append_left _ hmem)
    obtain ⟨m, hm1, hm2⟩ := chainSeg_append.1 hl.chainOk
    have hmz : m = some z := hm2.1
    subst hmz
    have hzlink : h z = none := hm2.2
    unfold lpushback
    rw [if_neg hn, hlast]
    refine ⟨⟨?_, ?_, ?_⟩, ?_⟩
    · show chainSeg (setNext h z (some x)) list.first ((L' ++ [z]) ++ [x]) none
      refine chainSeg_append.2 ⟨some x, chainSeg_append.2 ⟨some z, ?_, ⟨rfl, ?_⟩⟩, ⟨rfl, ?_⟩⟩
      · refine chainSeg_congr (fun y hy => ?_) hm1
        have : y ≠ z := fun hyz => hzL' (hyz ▸ hy)
        simp [setNext, this]
      · show setNext h z (some x) z = some x
        simp [setNext]
      · show chainSeg _ (setNext h z (some x) x) [] none
        have : setNext h z (some x) x = h x := by simp [setNext, hxz]
        rw [this, hlink]
        rfl
    · simp [← hl.lenOk]
    · simp [List.getLast?_concat]
    · intro w hw
      have hwz : w ≠ z := fun hwz => hw (hwz ▸ List.mem_append_right _ (List.mem_cons_self _ _))
      simp [setNext, hwz]

theorem lpopfront_zero {h : Heap} {list : SllList} (hn : list.n = 0) :
    lpopfront h list = (h, list, none) := by
  simp [lpopfront, hn]

theorem lpopfront_cons {h : Heap} {list : SllList} {x : Nat} {xs : List Nat}
    (hl : ListOk h list (x :: xs)) :
    ∃ h' l', lpopfront h list = (h', l', some x) ∧ ListOk h' l' xs ∧
      h' x = none ∧ lsize l' = lsize list - 1 ∧ ∀ z, z ≠ x → h' z = h z := by
  have hn : list.n = xs.length + 1 := hl.lenOk.symm
  have hfirst : list.first = some x := isChain_head hl.chainOk
  have hxnext : chainSeg h (h x) xs none := hl.chainOk.2
  have hxxs : x ∉ xs := chainSeg_head_not_mem ⟨rfl, hxnext⟩
  refine ⟨setNext h x none,
    ⟨h x, if h x = none then none else list.last, list.n - 1⟩, ?_, ?_, ?_, ?_, ?_⟩
  · simp [lpopfront, hn, hfirst]
  · refine ⟨?_, ?_, ?_⟩
    · refine chainSeg_congr (fun y hy => ?_) hxnext
      have : y ≠ x := fun hyx => hxxs (hyx ▸ hy)
      simp [setNext, this]
    · simp [hn]
    · cases hxs : xs with
      | nil =>
          have : h x = none := by
            rw [hxs] at hxnext
            exact hxnext
          simp [this]
      | cons y ys =>
          have hhx : h x = some y := by
            rw [hxs] at hxnext
            exact hxnext.1
          have : (x :: xs).getLast? = xs.getLast? := by
            rw [show x :: xs = [x] ++ xs from rfl]
            exact List.getLast?_append_of_ne_nil [x] (by simp [hxs])
          simp only [hhx]
          rw [if_neg (by simp)]
          rw [hl.lastOk, this, hxs]
  · simp [setNext]
  · rfl
  · intro z hz
    simp [setNext, hz]

theorem pushAll_ok :
    ∀ {xs : List Nat} {h : Heap} {list : SllList} {L : List Nat},
    ListOk h list L → xs.Nodup → (∀ x ∈ xs, x ∉ L ∧ h x = none) →
    ListOk (pushAll h list xs).1 (pushAll h list xs).2 (L ++ xs) ∧
    ∀ z, z ∉ L → z ∉ xs → (pushAll h list xs).1 z = h z := by
  intro xs
  induction xs with
  | nil =>
      intro h list L hl _ _
      exact ⟨by simpa using hl, fun z _ _ => rfl⟩
  | cons x xs ih =>
      intro h list L hl hnd hfresh
      have hxL : x ∉ L := (hfresh x (List.mem_cons_self _ _)).1
      have hxlink : h x = none := (hfresh x (List.mem_cons_self _ _)).2
      obtain ⟨hpush, hpres⟩ := lpushback_ok hl hxL hxlink
      rw [List.nodup_cons] at hnd
      have hfresh' : ∀ y ∈ xs, y ∉ L ++ [x] ∧ (lpushback h list x).1 y = none := by
        intro y hy
        have hyL : y ∉ L := (hfresh y (List.mem_cons_of_mem _ hy)).1
        have hyx : y ≠ x := fun hyx => hnd.1 (hyx ▸ hy)
        constructor
        · intro hmem
          rcases List.mem_append.1 hmem with hc | hc
          · exact hyL hc
          · exact hyx (List.mem_singleton.1 hc)
        · rw [hpres y hyL]
          exact (hfresh y (List.mem_cons_of_mem _ hy)).2
      obtain ⟨ih1, ih2⟩ := ih hpush hnd.2 hfresh'
      constructor
      · simpa [List.append_assoc] using ih1
      · intro z hzL hzxs
        have hzx : z ≠ x := fun hzx => hzxs (hzx ▸ List.mem_cons_self _ _)
        have hz1 : z ∉ L ++ [x] := by
          intro hmem
          rcases List.mem_append.1 hmem with hc | hc
          · exact hzL hc
          · exact hzx (List.mem_singleton.1 hc)
        have hz2 : z ∉ xs := fun hmem => hzxs (List.mem_cons_of_mem _ hmem)
        calc (pushAll h list (x :: xs)).1 z
            = (lpushback h list x).1 z := ih2 z hz1 hz2
          _ = h z := hpres z hzL

theorem popN_ok :
    ∀ {i : Nat} {h : Heap} {list : SllList} {L : List Nat},
    ListOk h list L → i ≤ L.length →
    ListOk (popN h list i).1 (popN h list i).2.1 (L.drop i) ∧
    (popN h list i).2.2 = (L.take i).map some := by
  intro i
  induction i with
  | zero =>
      intro h list L hl _
      exact ⟨by simpa using hl, by simp [popN]⟩
  | succ i ih =>
      intro h list L hl hle
      cases L with
      | nil => simp at hle
      | cons x xs =>
          obtain ⟨h', l', heq, hok, _, _, _⟩ := lpopfront_cons hl
          obtain ⟨ih1, ih2⟩ := ih hok (by simpa using hle)
          constructor
          · simpa only [popN, heq, List.drop_succ_cons] using ih1
          · simp only [popN, heq, List.take_succ_cons, List.map_cons]
            rw [ih2]

theorem lfree_ok :
    ∀ {L : List Nat} {h : Heap} {list : SllList}, ListOk h list L →
    (lfree h list).2.2 = L ∧ lsize (lfree h list).2.1 = 0 := by
  intro L
  induction L with
  | nil =>
      intro h list hl
      have hn : list.n = 0 := hl.lenOk.symm.trans rfl
      unfold lfree
      rw [hn]
      exact ⟨rfl, hn⟩
  | cons x xs ih =>
      intro h list hl
      have hn : list.n = xs.length + 1 := hl.lenOk.symm
      obtain ⟨h', l', heq, hok, _, _, _⟩ := lpopfront_cons hl
      have hn' : l'.n = xs.length := hok.lenOk.symm
      have hih := ih hok
      unfold lfree at hih ⊢
      rw [hn]
      simp only [lfreeAux, lsize]
      rw [if_pos (by omega), heq]
      rw [hn'] at hih
      exact ⟨by simp [hih.1], hih.2⟩

theorem ipop_ended {h : Heap} {list : SllList} {it : IterSt} {pre post : List Nat}
    (hL : ListOk h list (pre ++ post)) (hcur : it.current = none)
    (hprev : it.prev = pre.getLast?) (hnext : it.next = post.head?) :
    ipop h list it = (h, list, it, none) := by
  rcases List.eq_nil_or_concat pre with hpre | ⟨pre', p, hpre⟩
  · subst hpre
    have hpv : it.prev = none := hprev
    simp [ipop, hcur, hpv]
  · rw [List.concat_eq_append] at hpre
    subst hpre
    have hpv : it.prev = some p := by rw [hprev, List.getLast?_concat]
    have hpheap : h p = post.head? := by
      obtain ⟨m, hm1, hm2⟩ := chainSeg_append.1 hL.chainOk
      obtain ⟨m', hm1', hm2'⟩ := chainSeg_append.1 hm1
      rw [hm2'.2, isChain_head hm2]
    have hset : setNext h p it.next = h := by
      rw [hnext, ← hpheap, setNext_self]
    simp [ipop, hcur, hpv, hset]

theorem ipop_spec {h : Heap} {list : SllList} {it : IterSt} {pre post : List Nat} {cur : Nat}
    (hL : ListOk h list (pre ++ cur :: post))
    (hcur : it.current = some cur) (hprev : it.prev = pre.getLast?)
    (hnext : it.next = h cur) :
    (ipop h list it).2.2.2 = some cur ∧
    ListOk (ipop h list it).1 (ipop h list it).2.1 (pre ++ post) ∧
    (ipop h list it).2.2.1 = ⟨it.prev, none, it.next⟩ ∧
    it.next = post.head? ∧
    ∀ z, z ∉ pre ++ cur :: post → (ipop h list it).1 z = h z := by
  have hnd := chainSeg_nodup hL.chainOk
  rw [List.nodup_append] at hnd
  obtain ⟨hndpre, hndcp, hdisj⟩ := hnd
  have hcurpre : cur ∉ pre := fun hmem => hdisj hmem (List.mem_cons_self _ _)
  have hcurpost : cur ∉ post := (List.nodup_cons.1 hndcp).1
  obtain ⟨m, hm1, hm2⟩ := chainSeg_append.1 hL.chainOk
  have hmcur : m = some cur := hm2.1
  subst hmcur
  have hcpost : chainSeg h (h cur) post none := hm2.2
  have hph : h cur = post.head? := isChain_head hcpost
  have hlastval : (pre ++ cur :: post).getLast? = (cur :: post).getLast? :=
    List.getLast?_append_cons pre cur post
  rcases List.eq_nil_or_concat pre with hpre | ⟨pre', p, hpre⟩
  · subst hpre
    have hpv : it.prev = none := hprev
    have hfirstcur : list.first = some cur := by
      have := isChain_head hL.chainOk
      simpa using this
    have hip : ipop h list it =
        (setNext h cur none,
         ⟨it.next, if (some cur : Option Nat) = list.last then it.prev else list.last,
          list.n - 1⟩,
         ⟨it.prev, none, it.next⟩, some cur) := by
      simp only [ipop, hcur, hpv]
      rw [if_pos hfirstcur.symm]
    refine ⟨by rw [hip], ?_, by rw [hip], by rw [hnext, hph], ?_⟩
    · rw [hip]
      refine ⟨?_, ?_, ?_⟩
      · show chainSeg (setNext h cur none) it.next ([] ++ post) none
        rw [List.nil_append, hnext]
        refine chainSeg_congr (fun y hy => ?_) hcpost
        have : y ≠ cur := fun hyx => hcurpost (hyx ▸ hy)
        simp [setNext, this]
      · show ([] ++ post).length = list.n - 1
        have := hL.lenOk
        simp at this ⊢
        omega
      · show (if (some cur : Option Nat) = list.last then it.prev else list.last)
            = ([] ++ post).getLast?
        cases hpost : post with
        | nil =>
            have hlast : list.last = some cur := by
              rw [hL.lastOk, hlastval, hpost]
              rfl
            rw [if_pos hlast.symm, hpv]
            simp
        | cons q qs =>
            have hlastpost : list.last = post.getLast? := by
              rw [hL.lastOk, hlastval, hpost]
              exact List.getLast?_append_cons [cur] q qs
            have hcond : ¬ ((some cur : Option Nat) = list.last) := by
              rw [hlastpost]
              intro hc
              have : cur ∈ post :=
                List.mem_of_mem_getLast? (Option.mem_def.2 (hc.symm))
              exact hcurpost this
            rw [if_neg hcond, hlastpost]
            simp [hpost]
    · intro z hz
      rw [hip]
      have : z ≠ cur := fun hzc =>
        hz (by rw [hzc]; exact List.mem_append_right _ (List.mem_cons_self _ _))
      simp [setNext, this]
  · rw [List.concat_eq_append] at hpre
    subst hpre
    have hpv : it.prev = some p := by rw [hprev, List.getLast?_concat]
    have hcurpre' : cur ∉ pre' := fun hmem => hcurpre (List.mem_append_left _ hmem)
    have hppre' : p ∉ pre' := by
      rw [List.nodup_append] at hndpre
      exact fun hmem => hndpre.2.2 hmem (List.mem_cons_self _ _)
    have hppost : p ∉ post := fun hmem =>
      hdisj (List.mem_append_right _ (List.mem_cons_self _ _))
        (List.mem_cons_of_mem _ hmem)
    have hpcur : p ≠ cur := fun hpc =>
      hcurpre (hpc ▸ List.mem_append_right _ (List.mem_cons_self _ _))
    obtain ⟨m', hm1', hm2'⟩ := chainSeg_append.1 hm1
    have hm'p : m' = some p := hm2'.1
    subst hm'p
    have hpcurlink : h p = some cur := hm2'.2
    have hfirstne : ¬ ((some cur : Option Nat) = list.first) := by
      intro hc
      have hhead : list.first = (pre' ++ [p] ++ cur :: post).head? :=
        isChain_head hL.chainOk
      rw [List.head?_append_of_ne_nil (pre' ++ [p]) (by simp)] at hhead
      have : cur ∈ pre' ++ [p] :=
        List.mem_of_mem_head? (Option.mem_def.2 (hhead.symm.trans hc.symm))
      exact hcurpre this
    have hip : ipop h list it =
        (setNext (setNext h cur none) p it.next,
         ⟨list.first,
          if (some cur : Option Nat) = list.last then it.prev else list.last,
          list.n - 1⟩,
         ⟨it.prev, none, it.next⟩, some cur) := by
      simp only [ipop, hcur, hpv]
      rw [if_neg hfirstne]
    have happ : ∀ y, y ≠ cur → y ≠ p →
        setNext (setNext h cur none) p it.next y = h y := by
      intro y h1 h2
      simp [setNext, h1, h2]
    refine ⟨by rw [hip], ?_, by rw [hip], by rw [hnext, hph], ?_⟩
    · rw [hip]
      refine ⟨?_, ?_, ?_⟩
      · show chainSeg (setNext (setNext h cur none) p it.next) list.first
            (pre' ++ [p] ++ post) none
        refine chainSeg_append.2 ⟨post.head?,
          chainSeg_append.2 ⟨some p, ?_, ⟨rfl, ?_⟩⟩, ?_⟩
        · refine chainSeg_congr (fun y hy => ?_) hm1'
          exact happ y (fun hyc => hcurpre' (hyc ▸ hy)) (fun hyp => hppre' (hyp ▸ hy))
        · show chainSeg _ (setNext (setNext h cur none) p it.next p) [] post.head?
          have : setNext (setNext h cur none) p it.next p = it.next := by
            simp [setNext]
          rw [this, hnext, hph]
          rfl
        · refine chainSeg_congr (fun y hy => ?_) (hph ▸ hcpost)
          exact happ y (fun hyc => hcurpost (hyc ▸ hy)) (fun hyp => hppost (hyp ▸ hy))
      · show (pre' ++ [p] ++ post).length = list.n - 1
        have := hL.lenOk
        simp at this ⊢
        omega
      · show (if (some cur : Option Nat) = list.last then it.prev else list.last)
            = (pre' ++ [p] ++ post).getLast?
        cases hpost : post with
        | nil =>
            have hlast : list.last = some cur := by
              rw [hL.lastOk, hlastval, hpost]
              rfl
            rw [if_pos hlast.symm, hpv]
            simp [List.getLast?_concat]
        | cons q qs =>
            have hlastpost : list.last = post.getLast? := by
              rw [hL.lastOk, hlastval, hpost]
              exact List.getLast?_append_cons [cur] q qs
            have hcond : ¬ ((some cur : Option Nat) = list.last) := by
              rw [hlastpost]
              intro hc
              have : cur ∈ post :=
                List.mem_of_mem_getLast? (Option.mem_def.2 (hc.symm))
              exact hcurpost this
            rw [if_neg hcond, hlastpost, List.getLast?_append_of_ne_nil _ (by simp [hpost]),
              hpost]
    · intro z hz
      rw [hip]
      refine happ z (fun hzc => hz ?_) (fun hzp => hz ?_)
      · rw [hzc]
        exact List.mem_append_right _ (List.mem_cons_self _ _)
      · rw [hzp]
        exact List.mem_append_left _ (List.mem_append_right _ (List.mem_cons_self _ _))

theorem listOk_empty (h : Heap) : ListOk h emptyList [] := ⟨rfl, rfl, rfl⟩

theorem sysInv_init (h : Heap) (it : IterSt) :
    SysInv ⟨h, emptyList, emptyList, it, false, 0⟩ := by
  refine ⟨[], [], listOk_empty h, listOk_empty h, ?_, ?_, ?_, ?_⟩ <;> simp

theorem sysInv_clear {s : Sys} (hs : SysInv s) : SysInv (sysClear s) := by
  obtain ⟨L, P, hL, hP, hdisj, hbL, hbP, _⟩ := hs
  refine ⟨[], P, ⟨rfl, rfl, rfl⟩, hP, ?_, ?_, hbP, ?_⟩ <;> simp [sysClear]

theorem sysInv_pushback {s : Sys} {x : Nat} (hs : SysInv s)
    (hxa : x < s.alloc) (hxl : s.heap x = none)
    (hx1 : x ∉ nodesOf s.heap s.list) (hx2 : x ∉ nodesOf s.heap s.pool) :
    SysInv (sysPushback s x) := by
  obtain ⟨L, P, hL, hP, hdisj, hbL, hbP, _⟩ := hs
  rw [nodesOf_eq hL] at hx1
  rw [nodesOf_eq hP] at hx2
  obtain ⟨hpush, hpres⟩ := lpushback_ok hL hx1 hxl
  refine ⟨L ++ [x], P, hpush, ?_, ?_, ?_, hbP, ?_⟩
  · exact listOk_congr (fun z hz => hpres z (fun hmem => hdisj z hmem hz)) hP
  · intro y hy
    rcases List.mem_append.1 hy with hc | hc
    · exact hdisj y hc
    · rw [List.mem_singleton.1 hc]
      exact hx2
  · intro y hy
    rcases List.mem_append.1 hy with hc | hc
    · exact hbL y hc
    · rw [List.mem_singleton.1 hc]
      exact hxa
  · exact fun hv => absurd hv Bool.false_ne_true

theorem sysInv_popfront {s : Sys} (hs : SysInv s) : SysInv (sysPopfront s) := by
  obtain ⟨L, P, hL, hP, hdisj, hbL, hbP, _⟩ := hs
  cases L with
  | nil =>
      have hz := @lpopfront_zero s.heap s.list (show s.list.n = 0 from hL.lenOk.symm)
      have h1 : (sysPopfront s).heap = s.heap := by simp [sysPopfront, hz]
      have h2 : (sysPopfront s).list = s.list := by simp [sysPopfront, hz]
      refine ⟨[], P, ?_, ?_, by simp, by simp, hbP,
        fun hv => absurd hv Bool.false_ne_true⟩
      · rw [h1, h2]
        exact hL
      · rw [h1]
        exact hP
  | cons x xs =>
      obtain ⟨h', l', heq, hok, hx, hsz, hpres⟩ := lpopfront_cons hL
      have h1 : (sysPopfront s).heap = h' := by simp [sysPopfront, heq]
      have h2 : (sysPopfront s).list = l' := by simp [sysPopfront, heq]
      refine ⟨xs, P, ?_, ?_, ?_, ?_, hbP, fun hv => absurd hv Bool.false_ne_true⟩
      · rw [h1, h2]
        exact hok
      · rw [h1]
        refine listOk_congr (fun z hz => hpres z ?_) hP
        exact fun hzx => hdisj x (List.mem_cons_self _ _) (hzx ▸ hz)
      · exact fun y hy => hdisj y (List.mem_cons_of_mem _ hy)
      · exact fun y hy => hbL y (List.mem_cons_of_mem _ hy)

theorem sysInv_startMacro {s : Sys} (hs : SysInv s) : SysInv (sysStartMacro s) := by
  obtain ⟨L, P, hL, hP, hdisj, hbL, hbP, _⟩ := hs
  refine ⟨L, P, hL, hP, hdisj, hbL, hbP, fun _ => ?_⟩
  cases L with
  | nil =>
      have hfirst : s.list.first = none := by
        have := isChain_head hL.chainOk
        simpa using this
      exact Or.inr ⟨[], [], rfl, by simp [sysStartMacro, sllIstart, hfirst],
        by simp [sysStartMacro, sllIstart], by simp [sysStartMacro, sllIstart, hfirst]⟩
  | cons x xs =>
      have hfirst : s.list.first = some x := by
        have := isChain_head hL.chainOk
        simpa using this
      refine Or.inl ⟨[], x, xs, rfl, ?_, ?_, ?_⟩
      · simp [sysStartMacro, sllIstart, hfirst]
      · simp [sysStartMacro, sllIstart]
      · simp [sysStartMacro, sllIstart, hfirst]

theorem sysInv_startFn {s : Sys} (hs : SysInv s) (hne : s.list.first ≠ none) :
    SysInv (sysStartFn s) := by
  obtain ⟨L, P, hL, hP, hdisj, hbL, hbP, _⟩ := hs
  refine ⟨L, P, hL, hP, hdisj, hbL, hbP, fun _ => ?_⟩
  cases L with
  | nil =>
      have hfirst : s.list.first = none := by
        have := isChain_head hL.chainOk
        simpa using this
      exact absurd hfirst hne
  | cons x xs =>
      have hfirst : s.list.first = some x := by
        have := isChain_head hL.chainOk
        simpa using this
      refine Or.inl ⟨[], x, xs, rfl, ?_, ?_, ?_⟩
      · simp [sysStartFn, istart, hfirst]
      · simp [sysStartFn, istart]
      · simp [sysStartFn, istart, hfirst]

theorem sysInv_next {s : Sys} (hs : SysInv s) (hv : s.valid = true) :
    SysInv (sysNext s) := by
  obtain ⟨L, P, hL, hP, hdisj, hbL, hbP, hit⟩ := hs
  refine ⟨L, P, hL, hP, hdisj, hbL, hbP, fun _ => ?_⟩
  rcases hit hv with ⟨pre, cur, post, hLs, hcur, hprev, hnext⟩ |
    ⟨pre, post, hLs, hcur, hprev, hnext⟩
  · obtain ⟨m, hm1, hm2⟩ := chainSeg_append.1 (hLs ▸ hL.chainOk)
    have hmcur : m = some cur := hm2.1
    subst hmcur
    have hph : s.heap cur = post.head? := isChain_head hm2.2
    cases hpost : post with
    | nil =>
        have hnn : s.it.next = none := by
          rw [hnext, hph, hpost]
          rfl
        refine Or.inr ⟨pre ++ [cur], [], by rw [hLs, hpost]; simp, ?_, ?_, ?_⟩
        · simp [sysNext, inext, hcur, hnn]
        · simp [sysNext, inext, hcur, List.getLast?_concat]
        · simp [sysNext, inext, hcur, hnn]
    | cons q qs =>
        have hnq : s.it.next = some q := by
          rw [hnext, hph, hpost]
          rfl
        refine Or.inl ⟨pre ++ [cur], q, qs, by rw [hLs, hpost]; simp, ?_, ?_, ?_⟩
        · simp [sysNext, inext, hcur, hnq]
        · simp [sysNext, inext, hcur, List.getLast?_concat]
        · simp [sysNext, inext, hcur, hnq]
  · cases hpost : post with
    | nil =>
        have hnn : s.it.next = none := by
          rw [hnext, hpost]
          rfl
        refine Or.inr ⟨pre, [], by rw [hLs, hpost], ?_, ?_, ?_⟩
        · simp [sysNext, inext, hcur, hnn]
        · simp [sysNext, inext, hcur, hprev]
        · simp [sysNext, inext, hcur, hnn]
    | cons q qs =>
        have hnq : s.it.next = some q := by
          rw [hnext, hpost]
          rfl
        refine Or.inl ⟨pre, q, qs, by rw [hLs, hpost], ?_, ?_, ?_⟩
        · simp [sysNext, inext, hcur, hnq]
        · simp [sysNext, inext, hcur, hprev]
        · simp [sysNext, inext, hcur, hnq]

theorem sysInv_ipop {s : Sys} (hs : SysInv s) (hv : s.valid = true) :
    SysInv (sysIpop s) := by
  obtain ⟨L, P, hL, hP, hdisj, hbL, hbP, hit⟩ := hs
  rcases hit hv with ⟨pre, cur, post, hLs, hcur, hprev, hnext⟩ |
    ⟨pre, post, hLs, hcur, hprev, hnext⟩
  · obtain ⟨hret, hok, hitv, hnextpost, hpres⟩ := ipop_spec (hLs ▸ hL) hcur hprev hnext
    refine ⟨pre ++ post, P, hok, ?_, ?_, ?_, hbP, fun _ => ?_⟩
    · refine listOk_congr (fun z hz => hpres z ?_) hP
      exact fun hmem => hdisj z (by rw [hLs]; exact hmem) hz
    · intro y hy
      apply hdisj y
      rw [hLs]
      rcases List.mem_append.1 hy with hc | hc
      · exact List.mem_append_left _ hc
      · exact List.mem_append_right _ (List.mem_cons_of_mem _ hc)
    · intro y hy
      apply hbL y
      rw [hLs]
      rcases List.mem_append.1 hy with hc | hc
      · exact List.mem_append_left _ hc
      · exact List.mem_append_right _ (List.mem_cons_of_mem _ hc)
    · rw [show (sysIpop s).it = (⟨s.it.prev, none, s.it.next⟩ : IterSt) from hitv]
      exact Or.inr ⟨pre, post, rfl, rfl, hprev, hnextpost⟩
  · have hip := ipop_ended (hLs ▸ hL) hcur hprev hnext
    have h1 : (sysIpop s).heap = s.heap := by simp [sysIpop, hip]
    have h2 : (sysIpop s).list = s.list := by simp [sysIpop, hip]
    have h3 : (sysIpop s).it = s.it := by simp [sysIpop, hip]
    refine ⟨L, P, ?_, ?_, hdisj, hbL, hbP, fun _ => ?_⟩
    · rw [h1, h2]
      exact hL
    · rw [h1]
      exact hP
    · rw [h1, h3]
      exact Or.inr ⟨pre, post, hLs, hcur, hprev, hnext⟩

theorem sysInv_pget {s : Sys} (hs : SysInv s) : SysInv (sysPget s) := by
  obtain ⟨L, P, hL, hP, hdisj, hbL, hbP, hit⟩ := hs
  cases P with
  | nil =>
      have hz := @lpopfront_zero s.heap s.pool (show s.pool.n = 0 from hP.lenOk.symm)
      have h1 : (sysPget s).heap = setNext s.heap s.alloc none := by
        simp [sysPget, pget, hz]
      have h2 : (sysPget s).pool = s.pool := by simp [sysPget, pget, hz]
      have h3 : (sysPget s).alloc = s.alloc + 1 := by simp [sysPget, pget, hz]
      have hpresL : ∀ z ∈ L, (sysPget s).heap z = s.heap z := by
        intro z hz2
        rw [h1]
        have : z ≠ s.alloc := Nat.ne_of_lt (hbL z hz2)
        simp [setNext, this]
      refine ⟨L, [], listOk_congr hpresL hL,
        by rw [h2]; exact ⟨hP.chainOk, hP.lenOk, hP.lastOk⟩, ?_, ?_, ?_, ?_⟩
      · exact fun y _ => List.not_mem_nil y
      · intro y hy
        rw [h3]
        exact Nat.lt_succ_of_lt (hbL y hy)
      · simp
      · exact fun hvv => iterOk_congr hpresL (hit hvv)
  | cons y ys =>
      obtain ⟨h', p', heq, hok, hy, hsz, hpres⟩ := lpopfront_cons hP
      have h1 : (sysPget s).heap = h' := by simp [sysPget, pget, heq]
      have h2 : (sysPget s).pool = p' := by simp [sysPget, pget, heq]
      have h3 : (sysPget s).alloc = s.alloc := by simp [sysPget, pget, heq]
      have hpresL : ∀ z ∈ L, (sysPget s).heap z = s.heap z := by
        intro z hz
        rw [h1]
        refine hpres z (fun hzy => ?_)
        exact hdisj z hz (hzy ▸ List.mem_cons_self _ _)
      refine ⟨L, ys, listOk_congr hpresL hL, by rw [h1, h2]; exact hok, ?_, ?_, ?_, ?_⟩
      · exact fun a ha hc => hdisj a ha (List.mem_cons_of_mem _ hc)
      · intro a ha
        rw [h3]
        exact hbL a ha
      · intro a ha
        rw [h3]
        exact hbP a (List.mem_cons_of_mem _ ha)
      · exact fun hvv => iterOk_congr hpresL (hit hvv)

theorem sysInv_pgetm {s : Sys} (hs : SysInv s) : SysInv (sysPgetm s) := by
  obtain ⟨L, P, hL, hP, hdisj, hbL, hbP, hit⟩ := hs
  cases P with
  | nil =>
      have hz := @lpopfront_zero s.heap s.pool (show s.pool.n = 0 from hP.lenOk.symm)
      have h1 : (sysPgetm s).heap = s.heap := by simp [sysPgetm, pgetm, hz]
      have h2 : (sysPgetm s).pool = s.pool := by simp [sysPgetm, pgetm, hz]
      have h3 : (sysPgetm s).alloc = s.alloc + 1 := by simp [sysPgetm, pgetm, hz]
      have hpresL : ∀ z ∈ L, (sysPgetm s).heap z = s.heap z := by
        intro z _
        rw [h1]
      refine ⟨L, [], listOk_congr hpresL hL,
        by rw [h2]; exact ⟨hP.chainOk, hP.lenOk, hP.lastOk⟩, ?_, ?_, ?_, ?_⟩
      · exact fun y _ => List.not_mem_nil y
      · intro y hy
        rw [h3]
        exact Nat.lt_succ_of_lt (hbL y hy)
      · simp
      · exact fun hvv => iterOk_congr hpresL (hit hvv)
  | cons y ys =>
      obtain ⟨h', p', heq, hok, hy, hsz, hpres⟩ := lpopfront_cons hP
      have h1 : (sysPgetm s).heap = h' := by simp [sysPgetm, pgetm, heq]
      have h2 : (sysPgetm s).pool = p' := by simp [sysPgetm, pgetm, heq]
      have h3 : (sysPgetm s).alloc = s.alloc := by simp [sysPgetm, pgetm, heq]
      have hpresL : ∀ z ∈ L, (sysPgetm s).heap z = s.heap z := by
        intro z hz
        rw [h1]
        refine hpres z (fun hzy => ?_)
        exact hdisj z hz (hzy ▸ List.mem_cons_self _ _)
      refine ⟨L, ys, listOk_congr hpresL hL, by rw [h1, h2]; exact hok, ?_, ?_, ?_, ?_⟩
      · exact fun a ha hc => hdisj a ha (List.mem_cons_of_mem _ hc)
      · intro a ha
        rw [h3]
        exact hbL a ha
      · intro a ha
        rw [h3]
        exact hbP a (List.mem_cons_of_mem _ ha)
      · exact fun hvv => iterOk_congr hpresL (hit hvv)

theorem sysInv_preturn {s : Sys} {x : Nat} (hs : SysInv s) (hxa : x < s.alloc)
    (hxl : s.heap x = none) (hx1 : x ∉ nodesOf s.heap s.list)
    (hx2 : x ∉ nodesOf s.heap s.pool) : SysInv (sysPreturn s x) := by
  obtain ⟨L, P, hL, hP, hdisj, hbL, hbP, hit⟩ := hs
  rw [nodesOf_eq hL] at hx1
  rw [nodesOf_eq hP] at hx2
  obtain ⟨hpush, hpres⟩ := lpushback_ok hP hx2 hxl
  have hpresL : ∀ z ∈ L, (sysPreturn s x).heap z = s.heap z := by
    intro z hz
    exact hpres z (fun hmem => hdisj z hz hmem)
  refine ⟨L, P ++ [x], listOk_congr hpresL hL, hpush, ?_, hbL, ?_, ?_⟩
  · intro a ha hc
    rcases List.mem_append.1 hc with hc2 | hc2
    · exact hdisj a ha hc2
    · refine hx1 ?_
      rw [← List.mem_singleton.1 hc2]
      exact ha
  · intro a ha
    rcases List.mem_append.1 ha with hc | hc
    · exact hbP a hc
    · rw [List.mem_singleton.1 hc]
      exact hxa
  · exact fun hvv => iterOk_congr hpresL (hit hvv)

theorem reach_inv {s : Sys} (hs : Reach s) : SysInv s := by
  induction hs with
  | init h it => exact sysInv_init h it
  | clearStep _ ih => exact sysInv_clear ih
  | pushbackStep _ h1 h2 h3 h4 ih => exact sysInv_pushback ih h1 h2 h3 h4
  | popfrontStep _ ih => exact sysInv_popfront ih
  | startMacroStep _ ih => exact sysInv_startMacro ih
  | startFnStep _ hne ih => exact sysInv_startFn ih hne
  | nextStep _ hv ih => exact sysInv_next ih hv
  | ipopStep _ hv ih => exact sysInv_ipop ih hv
  | pgetStep _ ih => exact sysInv_pget ih
  | pgetmStep _ ih => exact sysInv_pgetm ih
  | preturnStep _ h1 h2 h3 h4 ih => exact sysInv_preturn ih h1 h2 h3 h4

theorem inextN_pos {h : Heap} {list : SllList} {L : List Nat} (hl : ListOk h list L) :
    ∀ k, inextN h k (sllIstart h list) =
      ⟨(L.take k).getLast?, (L.drop k).head?, (L.drop (k + 1)).head?⟩ := by
  intro k
  induction k with
  | zero =>
      show sllIstart h list = _
      have hfirst : list.first = L.head? := isChain_head hl.chainOk
      cases L with
      | nil =>
          have h0 : list.first = none := hfirst
          simp [sllIstart, h0]
      | cons x xs =>
          have hx : list.first = some x := hfirst
          have hnx : h x = xs.head? := isChain_head hl.chainOk.2
          simp [sllIstart, hx, hnx]
  | succ k ih =>
      show inext h (inextN h k (sllIstart h list)) = _
      rw [ih]
      cases hdk : L.drop k with
      | nil =>
          have hk : L.length ≤ k := List.drop_eq_nil_iff.1 hdk
          have hdk1 : L.drop (k + 1) = [] := List.drop_eq_nil_of_le (by omega)
          have hdk2 : L.drop (k + 1 + 1) = [] := List.drop_eq_nil_of_le (by omega)
          have htk : L.take k = L := List.take_of_length_le hk
          have htk1 : L.take (k + 1) = L := List.take_of_length_le (by omega)
          rw [hdk1, hdk2, htk, htk1]
          simp [inext]
      | cons c rest =>
          have hdk1 : L.drop (k + 1) = rest := by
            rw [← List.drop_drop 1 k L, hdk]
            rfl
          have htk1 : L.take (k + 1) = L.take k ++ [c] := by
            rw [List.take_succ]
            have hce : L[k]? = some c := by
              rw [← List.head?_drop, hdk]
              rfl
            rw [hce]
            rfl
          rw [hdk1, htk1]
          cases hrest : rest with
          | nil =>
              have hdk2 : L.drop (k + 1 + 1) = [] := by
                rw [← List.drop_drop 1 (k + 1) L, hdk1, hrest]
                rfl
              rw [hdk2]
              simp [inext, List.getLast?_concat]
          | cons d ds =>
              have hdk2 : L.drop (k + 1 + 1) = ds := by
                rw [← List.drop_drop 1 (k + 1) L, hdk1, hrest]
                rfl
              have hchain := chainSeg_drop hl.chainOk (k + 1)
              rw [hdk1, hrest] at hchain
              have hd : h d = ds.head? := isChain_head hchain.2
              rw [hdk2]
              simp [inext, List.getLast?_concat, hd]

/-- C1: on the list [1,2,3,4,5], the traversal loop that pops every node whose
value lies in the set containing 1, 3 and 5 (continuing with inext and iget
after each ipop) visits every node exactly once, in particular 2 and 4
exactly once each, and leaves the list holding exactly [2,4] in that order
with lsize 2. -/
theorem c1_iter_pop_traversal :
    isChain c1Heap c1List.first [1, 2, 3, 4, 5] ∧
    (iterFilterLoop (fun v => v == 1 || v == 3 || v == 5) 12 c1Heap c1List
        (sllIstart c1Heap c1List)).2.2 =
      [some 1, some 2, some 3, some 4, some 5] ∧
    nodesOf
      (iterFilterLoop (fun v => v == 1 || v == 3 || v == 5) 12 c1Heap c1List
        (sllIstart c1Heap c1List)).1
      (iterFilterLoop (fun v => v == 1 || v == 3 || v == 5) 12 c1Heap c1List
        (sllIstart c1Heap c1List)).2.1 = [2, 4] ∧
    isChain
      (iterFilterLoop (fun v => v == 1 || v == 3 || v == 5) 12 c1Heap c1List
        (sllIstart c1Heap c1List)).1
      (iterFilterLoop (fun v => v == 1 || v == 3 || v == 5) 12 c1Heap c1List
        (sllIstart c1Heap c1List)).2.1.first [2, 4] ∧
    lsize
      (iterFilterLoop (fun v => v == 1 || v == 3 || v == 5) 12 c1Heap c1List
        (sllIstart c1Heap c1List)).2.1 = 2 ∧
    (iterFilterLoop (fun v => v == 1 || v == 3 || v == 5) 12 c1Heap c1List
        (sllIstart c1Heap c1List)).2.2.count (some 2) = 1 ∧
    (iterFilterLoop (fun v => v == 1 || v == 3 || v == 5) 12 c1Heap c1List
        (sllIstart c1Heap c1List)).2.2.count (some 4) = 1 := by
  decide

/-- C2: in every reachable state (any sequence of clear, pushback, popfront,
istart, inext, iterator ipop, pool get, pool return, each under its stated
preconditions), the number of nodes reachable from first by following link
slots until none equals lsize, both for the list and for the pool; in
particular lsize stays correct after iterator-driven removal. -/
theorem c2_size_invariant {s : Sys} (hs : Reach s) :
    (∃ nodes, isChain s.heap s.list.first nodes ∧ nodes.length = lsize s.list) ∧
    (∃ nodes, isChain s.heap s.pool.first nodes ∧ nodes.length = lsize s.pool) := by
  obtain ⟨L, P, hL, hP, _⟩ := reach_inv hs
  exact ⟨⟨L, hL.chainOk, hL.lenOk⟩, ⟨P, hP.chainOk, hP.lenOk⟩⟩

theorem c2_size_invariant_witness :
    (∃ nodes, isChain c2WitSys.heap c2WitSys.list.first nodes ∧
      nodes.length = lsize c2WitSys.list) ∧
    (∃ nodes, isChain c2WitSys.heap c2WitSys.pool.first nodes ∧
      nodes.length = lsize c2WitSys.pool) :=
  c2_size_invariant
    (Reach.ipopStep
      (Reach.startMacroStep
        (Reach.pushbackStep
          (Reach.pgetStep (Reach.init (fun _ => none) ⟨none, none, none⟩))
          (by decide) (by decide) (by decide) (by decide)))
      (by decide))

/-- C3 counterexample: on the list [1,2], starting an iterator and popping
node 1 yields a reachable iterator state whose current is none while
iisend returns false, so "isend true exactly when current is none" fails. -/
theorem c3_counterexample :
    (ipop c3Heap c3List (sllIstart c3Heap c3List)).2.2.1.current = none ∧
    iisend (ipop c3Heap c3List (sllIstart c3Heap c3List)).2.1
      (ipop c3Heap c3List (sllIstart c3Heap c3List)).2.2.1 = false := by
  decide

/-- C3 amended: iisend also requires the lookahead to be none and prev to
equal the list's last, so it is not equivalent to "current is none" right
after a pop; but along a pop-free traversal (start followed by any number
of inext) iisend is true exactly when current is none. -/
theorem c3_isend_amended {h : Heap} {list : SllList} {L : List Nat}
    (hl : ListOk h list L) (k : Nat) :
    iisend list (inextN h k (sllIstart h list)) = true ↔
      (inextN h k (sllIstart h list)).current = none := by
  rw [inextN_pos hl k]
  cases hdk : L.drop k with
  | nil =>
      have hk : L.length ≤ k := List.drop_eq_nil_iff.1 hdk
      have hdk1 : L.drop (k + 1) = [] := List.drop_eq_nil_of_le (by omega)
      have htk : L.take k = L := List.take_of_length_le hk
      simp [iisend, hdk, hdk1, htk, hl.lastOk]
  | cons c rest =>
      simp [iisend, hdk]

theorem c3_isend_amended_witness :
    iisend c3List (inextN c3Heap 2 (sllIstart c3Heap c3List)) = true ↔
      (inextN c3Heap 2 (sllIstart c3Heap c3List)).current = none :=
  @c3_isend_amended c3Heap c3List [1, 2] ⟨by decide, rfl, by decide⟩ 2

/-- C4: evaluation of istart on an empty list with an iterator whose next
field holds a stale value: the C function leaves iter->next unassigned, so
the lookahead keeps the stale value and iisend returns false, although iget
does return none; the SLL_ISTART macro on the same list does produce the
ended state.  This contradicts the claim (and the documented intent) that
start on an empty list immediately yields the ended state with lookahead
none. -/
theorem c4_istart_empty_eval :
    iget (istart (fun _ => none) emptyList ⟨none, none, some 7⟩) = none ∧
    (istart (fun _ => none) emptyList ⟨none, none, some 7⟩).next = some 7 ∧
    iisend emptyList (istart (fun _ => none) emptyList ⟨none, none, some 7⟩) = false ∧
    (sllIstart (fun _ => none) emptyList).next = none ∧
    iisend emptyList (sllIstart (fun _ => none) emptyList) = true := by
  decide

/-- C5: in every reachable state whose iterator is valid and has current =
none (the ended state), ipop returns none and has no effect at all: the
heap (every link slot), the list and the iterator are unchanged. -/
theorem c5_pop_ended_noop {s : Sys} (hs : Reach s) (hv : s.valid = true)
    (hcur : s.it.current = none) :
    ipop s.heap s.list s.it = (s.heap, s.list, s.it, none) := by
  obtain ⟨L, P, hL, hP, _, _, _, hit⟩ := reach_inv hs
  rcases hit hv with ⟨pre, cur, post, _, hc, _, _⟩ | ⟨pre, post, hLs, hc, hprev, hnext⟩
  · rw [hcur] at hc
    exact absurd hc (by simp)
  · exact ipop_ended (hLs ▸ hL) hc hprev hnext

theorem c5_pop_ended_noop_witness :
    ipop c5WitSys.heap c5WitSys.list c5WitSys.it =
      (c5WitSys.heap, c5WitSys.list, c5WitSys.it, none) :=
  c5_pop_ended_noop (Reach.startMacroStep (Reach.init (fun _ => none) ⟨none, none, none⟩))
    rfl rfl

/-- C6: pushing distinct, initially unlinked nodes onto an empty list and
popping them all returns them in FIFO order with lsize decreasing by
exactly one per pop; popfront on an empty list returns none and leaves
everything unchanged; and on a well-formed non-empty list popfront detaches
the first node, leaves a well-formed list of the remaining nodes, clears
the detached node's link slot and decrements the count. -/
theorem c6_fifo :
    (∀ (h : Heap) (xs : List Nat), xs.Nodup → (∀ x ∈ xs, h x = none) →
      (popN (pushAll h emptyList xs).1 (pushAll h emptyList xs).2 xs.length).2.2 =
        xs.map some ∧
      ∀ i, i ≤ xs.length →
        lsize (popN (pushAll h emptyList xs).1 (pushAll h emptyList xs).2 i).2.1 =
          xs.length - i) ∧
    (∀ (h : Heap) (list : SllList), lsize list = 0 →
      lpopfront h list = (h, list, none)) ∧
    (∀ (h : Heap) (list : SllList) (x : Nat) (xs : List Nat),
      ListOk h list (x :: xs) →
      ∃ h' l', lpopfront h list = (h', l', some x) ∧ ListOk h' l' xs ∧
        h' x = none ∧ lsize l' = lsize list - 1) := by
  refine ⟨?_, ?_, ?_⟩
  · intro h xs hnd hfresh
    have hstart := pushAll_ok (listOk_empty h) hnd
      (fun x hx => ⟨List.not_mem_nil x, hfresh x hx⟩)
    have hok : ListOk (pushAll h emptyList xs).1 (pushAll h emptyList xs).2 xs := by
      simpa using hstart.1
    constructor
    · have := (popN_ok hok (le_refl xs.length)).2
      simpa using this
    · intro i hi
      have hlen := (popN_ok hok hi).1.lenOk
      show (popN (pushAll h emptyList xs).1 (pushAll h emptyList xs).2 i).2.1.n =
        xs.length - i
      rw [← hlen]
      simp
  · exact fun h list hz => @lpopfront_zero h list hz
  · intro h list x xs hl
    obtain ⟨h', l', heq, hok, hx, hsz, _⟩ := lpopfront_cons hl
    exact ⟨h', l', heq, hok, hx, hsz⟩

theorem c6_fifo_witness :
    (popN (pushAll (fun _ => none) emptyList [3, 1, 2]).1
        (pushAll (fun _ => none) emptyList [3, 1, 2]).2 3).2.2 =
      [some 3, some 1, some 2] ∧
    lsize (popN (pushAll (fun _ => none) emptyList [3, 1, 2]).1
        (pushAll (fun _ => none) emptyList [3, 1, 2]).2 2).2.1 = 1 :=
  ⟨(c6_fifo.1 (fun _ => none) [3, 1, 2] (by decide) (by decide)).1,
   (c6_fifo.1 (fun _ => none) [3, 1, 2] (by decide) (by decide)).2 2 (by decide)⟩

/-- C7: returning a single node x to an empty pool and then calling pget
yields exactly x without allocating (the allocation counter is unchanged)
and empties the pool; pget on an empty pool returns the fresh calloc node
with its link slot zeroed and bumps the allocation counter; pgetm reports
isnew = false when a pooled node is recycled and isnew = true (allocating
fresh) when the pool is empty. -/
theorem c7_pool_reuse :
    (∀ (h : Heap) (pool : SllList) (x alloc : Nat), ListOk h pool [] →
      h x = none →
      (pget (preturn h pool x).1 (preturn h pool x).2 alloc).2.2.2 = x ∧
      (pget (preturn h pool x).1 (preturn h pool x).2 alloc).2.2.1 = alloc ∧
      lsize (pget (preturn h pool x).1 (preturn h pool x).2 alloc).2.1 = 0) ∧
    (∀ (h : Heap) (pool : SllList) (alloc : Nat), ListOk h pool [] →
      (pget h pool alloc).2.2.2 = alloc ∧
      (pget h pool alloc).2.2.1 = alloc + 1 ∧
      (pget h pool alloc).1 alloc = none) ∧
    (∀ (h : Heap) (pool : SllList) (alloc : Nat) (y : Nat) (ys : List Nat),
      ListOk h pool (y :: ys) →
      (pgetm h pool alloc).2.2.2.2 = false ∧
      (pgetm h pool alloc).2.2.2.1 = y ∧
      (pgetm h pool alloc).2.2.1 = alloc) ∧
    (∀ (h : Heap) (pool : SllList) (alloc : Nat), ListOk h pool [] →
      (pgetm h pool alloc).2.2.2.2 = true ∧
      (pgetm h pool alloc).2.2.2.1 = alloc) := by
  refine ⟨?_, ?_, ?_, ?_⟩
  · intro h pool x alloc hpool hx
    have hn : pool.n = 0 := hpool.lenOk.symm
    have hpret : preturn h pool x = (h, ⟨some x, some x, 1⟩) := by
      simp [preturn, lpushback, hn]
    have hpop : lpopfront h ⟨some x, some x, 1⟩ =
        (setNext h x none, ⟨none, none, 0⟩, some x) := by
      simp [lpopfront, hx]
    rw [hpret]
    simp [pget, hpop, lsize]
  · intro h pool alloc hpool
    have hn : pool.n = 0 := hpool.lenOk.symm
    have hz := @lpopfront_zero h pool hn
    simp [pget, hz, setNext]
  · intro h pool alloc y ys hpool
    obtain ⟨h', p', heq, _, _, _, _⟩ := lpopfront_cons hpool
    simp [pgetm, heq]
  · intro h pool alloc hpool
    have hn : pool.n = 0 := hpool.lenOk.symm
    have hz := @lpopfront_zero h pool hn
    simp [pgetm, hz]

theorem c7_pool_reuse_witness :
    (pget (preturn (fun _ => none) emptyList 5).1
        (preturn (fun _ => none) emptyList 5).2 9).2.2.2 = 5 ∧
    (pget (preturn (fun _ => none) emptyList 5).1
        (preturn (fun _ => none) emptyList 5).2 9).2.2.1 = 9 ∧
    (pgetm (fun _ => none) emptyList 9).2.2.2.2 = true :=
  ⟨(c7_pool_reuse.1 (fun _ => none) emptyList 5 9 (listOk_empty _) rfl).1,
   (c7_pool_reuse.1 (fun _ => none) emptyList 5 9 (listOk_empty _) rfl).2.1,
   (c7_pool_reuse.2.2.2 (fun _ => none) emptyList 9 (listOk_empty _)).1⟩

/-- C8: lfree (and pfree, which is lfree on the pool) on a well-formed
container holding the nodes L hands exactly the nodes of L, in order, to
the destructor - one call per node, all distinct, as many calls as lsize -
and leaves lsize 0. -/
theorem c8_free_contents {h : Heap} {list : SllList} {L : List Nat}
    (hl : ListOk h list L) :
    (lfree h list).2.2 = L ∧ (lfree h list).2.2.length = lsize list ∧
    (lfree h list).2.2.Nodup ∧ lsize (lfree h list).2.1 = 0 ∧
    (pfree h list).2.2 = L ∧ lsize (pfree h list).2.1 = 0 := by
  obtain ⟨h1, h2⟩ := lfree_ok hl
  refine ⟨h1, ?_, ?_, h2, h1, h2⟩
  · rw [h1, hl.lenOk]
    rfl
  · rw [h1]
    exact chainSeg_nodup hl.chainOk

theorem c8_free_contents_witness :
    (lfree c8Heap c8List).2.2 = [1, 2] ∧ lsize (lfree c8Heap c8List).2.1 = 0 :=
  ⟨(@c8_free_contents c8Heap c8List [1, 2] ⟨by decide, rfl, by decide⟩).1,
   (@c8_free_contents c8Heap c8List [1, 2] ⟨by decide, rfl, by decide⟩).2.2.2.1⟩

/-- C9 counterexample: a NULL node passes lpushback's assertion layer (only
the list is asserted) and the C body then appends the NULL node: on an
empty list it becomes first and last with the count set to 1.  This refutes
the claim that pushback checks both its list and its node arguments. -/
theorem c9_counterexample :
    lpushbackAsserts (some emptyList) none = true ∧
    lpushbackNullable (fun _ => none) emptyList none =
      ((fun _ => none : Heap), (⟨none, none, 1⟩ : SllList)) :=
  ⟨rfl, rfl⟩

/-- C9 amended: every operation checks its list, pool or iterator reference
parameter non-null by an assertion (lfree and pclear through the assert of
the first callee), and lnclear, pgetm and preturn also assert their node or
flag pointer; but lpushback asserts only its list - its node argument is
accepted unchecked. -/
theorem c9_asserts_amended :
    lclearAsserts none = false ∧ lnclearAsserts none = false ∧
    lsizeAsserts none = false ∧
    (∀ node, lpushbackAsserts none node = false) ∧
    (∀ list node, lpushbackAsserts (some list) node = true) ∧
    lpopfrontAsserts none = false ∧ lfreeAsserts none = false ∧
    (∀ list, istartAsserts none list = false) ∧
    (∀ iter, istartAsserts iter none = false) ∧
    igetAsserts none = false ∧ inextAsserts none = false ∧
    iisendAsserts none = false ∧ ipopAsserts none = false ∧
    pclearAsserts none = false ∧ pgetAsserts none = false ∧
    (∀ isnew, pgetmAsserts none isnew = false) ∧
    (∀ pool, pgetmAsserts pool none = false) ∧
    (∀ node, preturnAsserts none node = false) ∧
    (∀ pool, preturnAsserts pool none = false) ∧
    pfreeAsserts none = false := by
  refine ⟨rfl, rfl, rfl, fun _ => rfl, fun _ _ => rfl, rfl, rfl, fun _ => rfl,
    ?_, rfl, rfl, rfl, rfl, rfl, rfl, fun _ => rfl, ?_, fun _ => rfl, ?_, rfl⟩
  · intro iter
    cases iter <;> rfl
  · intro pool
    cases pool <;> rfl
  · intro pool
    cases pool <;> rfl

theorem c9_asserts_amended_witness :
    lpushbackAsserts (some emptyList) (some 5) = true ∧
    istartAsserts (some ⟨none, none, none⟩) none = false :=
  ⟨c9_asserts_amended.2.2.2.2.1 emptyList (some 5),
   c9_asserts_amended.2.2.2.2.2.2.2.2.1 (some ⟨none, none, none⟩)⟩

/-- C10 counterexample: on an empty list, the istart function and the
SLL_ISTART macro disagree whenever the iterator's next field holds a stale
value: the macro sets lookahead to none, the function leaves it as it was. -/
theorem c10_counterexample :
    istart (fun _ => none) emptyList ⟨none, none, some 0⟩ ≠
      sllIstart (fun _ => none) emptyList := by
  decide

/-- C10 amended: on every non-empty list the istart function and the
SLL_ISTART macro produce identical iterator states (prev none, current the
first node, lookahead its successor), for any prior iterator contents; they
can differ only on an empty list, where the function leaves the lookahead
field unassigned while the macro zeroes it. -/
theorem c10_istart_macro_agree (h : Heap) (list : SllList) (it : IterSt)
    (f : Nat) (hf : list.first = some f) :
    istart h list it = sllIstart h list := by
  unfold istart sllIstart
  rw [hf]
  simp

theorem c10_istart_macro_agree_witness :
    istart (fun _ => none) ⟨some 3, some 3, 1⟩ ⟨none, none, none⟩ =
      sllIstart (fun _ => none) ⟨some 3, some 3, 1⟩ :=
  c10_istart_macro_agree (fun _ => none) ⟨some 3, some 3, 1⟩ ⟨none, none, none⟩ 3 rfl

end SllMeta
